import Mathlib

/-!
Verification development for the SAELens repository.

The training core (`TrainingSparseAutoencoder`, `SAETrainer`) is embedded
shallowly over the reals: tensors become functions on `Fin`-indexed types,
float arithmetic becomes exact real arithmetic, the per-call Gaussian noise
draw and the per-call random permutations become explicit parameters, and
PyTorch's `.detach()` is modelled by passing the weight-dependent inputs of a
loss twice (an "active" copy that gradients flow through, and a "detached"
copy whose value is fixed when differentiating).

The `NeuronpediaRunner` helpers (`to_str_tokens_safe`, `get_tokens`) are
embedded as computable functions over lists.
-/

namespace SAELens

noncomputable section

/-- Modelled from the spec: the ReLU nonlinearity applied by `encode`. -/
def relu (x : ℝ) : ℝ := max x 0

/-- L2 norm of a vector, `torch.norm(v)` over one axis. -/
def l2norm {D : ℕ} (v : Fin D → ℝ) : ℝ := Real.sqrt (∑ i, v i ^ 2)

/-- Mean of a finite family, `tensor.mean()` along one axis. -/
def mean {N : ℕ} (f : Fin N → ℝ) : ℝ := (∑ n, f n) / N

/-- The additive stabiliser `1e-6` used by the loss engine. -/
def eps : ℝ := 1 / 1000000

/-- Modelled from the spec: the configuration fields of
`SparseAutoencoderConfig` that the loss engine and trainer read
(`d_in`/`d_sae` are carried as type indices instead). The field
`mse_loss_dense_batch` is `true` when `mse_loss_normalization` is
`dense_batch` and `false` when it is `none`. -/
structure Config where
  l1_coefficient : ℝ
  noise_scale : ℝ
  use_ghost_grads : Bool
  dead_feature_window : ℕ
  mse_loss_dense_batch : Bool
  scale_sparsity_penalty_by_decoder_norm : Bool
  normalize_sae_decoder : Bool

/-- Modelled from the spec: the weight state of `SparseAutoencoder` —
`W_enc : (d_in, d_sae)`, `b_enc : (d_sae)`, `W_dec : (d_sae, d_in)`,
`b_dec : (d_in)`. -/
structure Weights (dIn dSae : ℕ) where
  W_enc : Fin dIn → Fin dSae → ℝ
  b_enc : Fin dSae → ℝ
  W_dec : Fin dSae → Fin dIn → ℝ
  b_dec : Fin dIn → ℝ

/-- Modelled from the spec: the pre-activation `x · W_enc + b_enc` plus the
Gaussian perturbation `noise_scale * noise`; the random draw `noise` is an
explicit argument (an independent draw each call in the source). -/
def hiddenPre {dIn dSae : ℕ} (cfg : Config) (w : Weights dIn dSae)
    (x : Fin dIn → ℝ) (noise : Fin dSae → ℝ) : Fin dSae → ℝ :=
  fun j => (∑ i, x i * w.W_enc i j) + w.b_enc j + cfg.noise_scale * noise j

/-- Modelled from the spec: `encode` = ReLU of the pre-activation. -/
def encode {dIn dSae : ℕ} (cfg : Config) (w : Weights dIn dSae)
    (x : Fin dIn → ℝ) (noise : Fin dSae → ℝ) : Fin dSae → ℝ :=
  fun j => relu (hiddenPre cfg w x noise j)

/-- Modelled from the spec: `decode` reconstructs
`feature_acts · W_dec + b_dec`. -/
def decode {dIn dSae : ℕ} (w : Weights dIn dSae)
    (featureActs : Fin dSae → ℝ) : Fin dIn → ℝ :=
  fun i => (∑ j, featureActs j * w.W_dec j i) + w.b_dec i

/-- Modelled from the spec: `forward` = encode then decode. -/
def forward {dIn dSae : ℕ} (cfg : Config) (w : Weights dIn dSae)
    (x : Fin dIn → ℝ) (noise : Fin dSae → ℝ) : Fin dIn → ℝ :=
  decode w (encode cfg w x noise)

/-- Per-item squared error, `mse_loss(preds, target, reduction="none")`. -/
def perItemMseStandard {N D : ℕ} (preds target : Fin N → Fin D → ℝ) :
    Fin N → Fin D → ℝ :=
  fun n d => (preds n d - target n d) ^ 2

/-- The batch-mean-centered target, `target - target.mean(dim=0)`. -/
def batchCentered {N D : ℕ} (target : Fin N → Fin D → ℝ) :
    Fin N → Fin D → ℝ :=
  fun n d => target n d - mean (fun m => target m d)

/-- Modelled from the spec: the `dense_batch` per-item MSE — the squared
error divided by `eps + ` the L2 norm of the batch-mean-centered target row
(the epsilon sits outside the square root, added to the norm). -/
def perItemMseDenseBatch {N D : ℕ} (preds target : Fin N → Fin D → ℝ) :
    Fin N → Fin D → ℝ :=
  fun n d =>
    (preds n d - target n d) ^ 2 /
      (eps + l2norm (fun e => batchCentered target n e))

/-- Modelled from the spec: `_get_mse_loss_fn`, selecting the per-item MSE
function from the current `mse_loss_normalization` setting. -/
def mseLossFn {N D : ℕ} (cfg : Config) (preds target : Fin N → Fin D → ℝ) :
    Fin N → Fin D → ℝ :=
  if cfg.mse_loss_dense_batch then perItemMseDenseBatch preds target
  else perItemMseStandard preds target

/-- L2 norms of the decoder rows, `W_dec.norm(dim=1)`. -/
def rowNorms {dIn dSae : ℕ} (w : Weights dIn dSae) : Fin dSae → ℝ :=
  fun j => l2norm (w.W_dec j)

/-- Modelled from the spec: the sparsity penalty — the (optionally
decoder-norm-weighted) per-example L1 norm of the feature activations,
averaged over the batch and multiplied by `l1_coefficient`. -/
def l1Loss {N dIn dSae : ℕ} (cfg : Config) (w : Weights dIn dSae)
    (featureActs : Fin N → Fin dSae → ℝ) : ℝ :=
  let weighted : Fin N → Fin dSae → ℝ :=
    if cfg.scale_sparsity_penalty_by_decoder_norm then
      fun n j => featureActs n j * rowNorms w j
    else featureActs
  cfg.l1_coefficient * mean (fun n => ∑ j, |weighted n j|)

/-- The ghost reconstruction: exponentials of the dead features'
pre-activations times the dead rows of `W_dec`
(`exp(hidden_pre[:, dead]) @ W_dec[dead, :]`). -/
def ghostOut {N dIn dSae : ℕ} (deadMask : Fin dSae → Bool)
    (hp : Fin N → Fin dSae → ℝ) (Wdec : Fin dSae → Fin dIn → ℝ) :
    Fin N → Fin dIn → ℝ :=
  fun n i => ∑ j, if deadMask j then Real.exp (hp n j) * Wdec j i else 0

/-- Modelled from the spec: `calculate_ghost_grad_loss`. The ghost output is
rescaled by a detached factor matching half the residual norm, its per-item
MSE against the detached residual is rescaled by a detached factor matching
the primary per-item MSE, and the result is averaged. The weight-dependent
inputs appear twice: `hpA`/`WdecA` are the active (gradient-carrying)
copies, while `hpD`/`WdecD` feed only the `.detach()`-ed scale factors; at
equal arguments the value is the source's value, and the partial derivative
in the active arguments is the source's backpropagated gradient. -/
def calculateGhostGradLoss {N dIn dSae : ℕ} (cfg : Config)
    (deadMask : Fin dSae → Bool) (x saeOut : Fin N → Fin dIn → ℝ)
    (perItemMse : Fin N → Fin dIn → ℝ)
    (hpA : Fin N → Fin dSae → ℝ) (WdecA : Fin dSae → Fin dIn → ℝ)
    (hpD : Fin N → Fin dSae → ℝ) (WdecD : Fin dSae → Fin dIn → ℝ) : ℝ :=
  let residual : Fin N → Fin dIn → ℝ := fun n i => x n i - saeOut n i
  let gA := ghostOut deadMask hpA WdecA
  let gD := ghostOut deadMask hpD WdecD
  let scale : Fin N → ℝ :=
    fun n => l2norm (residual n) / (eps + 2 * l2norm (gD n))
  let scaledA : Fin N → Fin dIn → ℝ := fun n i => gA n i * scale n
  let scaledD : Fin N → Fin dIn → ℝ := fun n i => gD n i * scale n
  let ghostResidA := mseLossFn cfg scaledA residual
  let ghostResidD := mseLossFn cfg scaledD residual
  let rescale : Fin N → Fin dIn → ℝ :=
    fun n i => perItemMse n i / (ghostResidD n i + eps)
  mean (fun n => mean (fun i => rescale n i * ghostResidA n i))

/-- Modelled from the spec: a feature is dead when its inactivity counter
has reached `dead_feature_window`. -/
def deadMask {dSae : ℕ} (cfg : Config) (counters : Fin dSae → ℕ) :
    Fin dSae → Bool :=
  fun j => decide (cfg.dead_feature_window ≤ counters j)

/-- Modelled from the spec: `TrainStepOutput` — the ephemeral result of one
training forward pass, with the three loss components separately
retrievable. -/
structure TrainStepOutput (N dIn dSae : ℕ) where
  sae_out : Fin N → Fin dIn → ℝ
  feature_acts : Fin N → Fin dSae → ℝ
  loss : ℝ
  mse_loss : ℝ
  l1_loss : ℝ
  ghost_grad_loss : ℝ

/-- The batched pre-activations of one training forward pass. -/
def fwdHiddenPre {N dIn dSae : ℕ} (cfg : Config) (w : Weights dIn dSae)
    (x : Fin N → Fin dIn → ℝ) (noise : Fin N → Fin dSae → ℝ) :
    Fin N → Fin dSae → ℝ :=
  fun n => hiddenPre cfg w (x n) (noise n)

/-- The batched feature activations of one training forward pass. -/
def fwdFeatureActs {N dIn dSae : ℕ} (cfg : Config) (w : Weights dIn dSae)
    (x : Fin N → Fin dIn → ℝ) (noise : Fin N → Fin dSae → ℝ) :
    Fin N → Fin dSae → ℝ :=
  fun n j => relu (fwdHiddenPre cfg w x noise n j)

/-- The batched reconstruction of one training forward pass. -/
def fwdSaeOut {N dIn dSae : ℕ} (cfg : Config) (w : Weights dIn dSae)
    (x : Fin N → Fin dIn → ℝ) (noise : Fin N → Fin dSae → ℝ) :
    Fin N → Fin dIn → ℝ :=
  fun n => decode w (fwdFeatureActs cfg w x noise n)

/-- The reduced MSE loss of one training forward pass:
`per_item_mse_loss.sum(dim=-1).mean()`. -/
def fwdMseLoss {N dIn dSae : ℕ} (cfg : Config) (w : Weights dIn dSae)
    (x : Fin N → Fin dIn → ℝ) (noise : Fin N → Fin dSae → ℝ) : ℝ :=
  mean (fun n => ∑ i, mseLossFn cfg (fwdSaeOut cfg w x noise) x n i)

/-- Modelled from the spec: the ghost-gradient term of one training forward
pass — `calculate_ghost_grad_loss` when `use_ghost_grads` is enabled and at
least one feature is currently dead, and exactly `0` otherwise. -/
def ghostTerm {N dIn dSae : ℕ} (cfg : Config) (w : Weights dIn dSae)
    (counters : Fin dSae → ℕ) (x : Fin N → Fin dIn → ℝ)
    (noise : Fin N → Fin dSae → ℝ) : ℝ :=
  if cfg.use_ghost_grads = true ∧ ∃ j, deadMask cfg counters j = true then
    calculateGhostGradLoss cfg (deadMask cfg counters) x
      (fwdSaeOut cfg w x noise) (mseLossFn cfg (fwdSaeOut cfg w x noise) x)
      (fwdHiddenPre cfg w x noise) w.W_dec
      (fwdHiddenPre cfg w x noise) w.W_dec
  else 0

/-- Modelled from the spec: `SAETrainer._training_forward_pass` — encode
with hidden pre, decode, the three loss terms (the ghost term guarded by
`use_ghost_grads` and the presence of a dead feature), and their sum. -/
def trainingForwardPass {N dIn dSae : ℕ} (cfg : Config)
    (w : Weights dIn dSae) (counters : Fin dSae → ℕ)
    (x : Fin N → Fin dIn → ℝ) (noise : Fin N → Fin dSae → ℝ) :
    TrainStepOutput N dIn dSae :=
  { sae_out := fwdSaeOut cfg w x noise
    feature_acts := fwdFeatureActs cfg w x noise
    loss := fwdMseLoss cfg w x noise + l1Loss cfg w (fwdFeatureActs cfg w x noise) +
      ghostTerm cfg w counters x noise
    mse_loss := fwdMseLoss cfg w x noise
    l1_loss := l1Loss cfg w (fwdFeatureActs cfg w x noise)
    ghost_grad_loss := ghostTerm cfg w counters x noise }

/-- Modelled from the spec: `set_decoder_norm_to_unit_norm` rescales every
row of `W_dec` to unit L2 norm. -/
def setDecoderNormToUnitNorm {dIn dSae : ℕ}
    (Wdec : Fin dSae → Fin dIn → ℝ) : Fin dSae → Fin dIn → ℝ :=
  fun j i => Wdec j i / l2norm (Wdec j)

/-- Modelled from the spec: `remove_gradient_parallel_to_decoder_directions`
projects out of each gradient row the component parallel to the
corresponding decoder row's direction; the weights are returned untouched,
only the gradient is rewritten. -/
def removeGradientParallelToDecoderDirections {dIn dSae : ℕ}
    (Wdec grad : Fin dSae → Fin dIn → ℝ) :
    (Fin dSae → Fin dIn → ℝ) × (Fin dSae → Fin dIn → ℝ) :=
  (Wdec, fun j i =>
    grad j i -
      ((∑ e, grad j e * Wdec j e) / (∑ e, Wdec j e ^ 2)) * Wdec j i)

/-! ### Generic helper lemmas -/

theorem l2norm_nonneg {D : ℕ} (v : Fin D → ℝ) : 0 ≤ l2norm v :=
  Real.sqrt_nonneg _

theorem l2norm_div {D : ℕ} (v : Fin D → ℝ) (c : ℝ) (hc : 0 ≤ c) :
    l2norm (fun i => v i / c) = l2norm v / c := by
  unfold l2norm
  have h1 : (∑ i, (v i / c) ^ 2) = (∑ i, v i ^ 2) / c ^ 2 := by
    rw [Finset.sum_div]
    exact Finset.sum_congr rfl fun i _ => by rw [div_pow]
  rw [h1, Real.sqrt_div (by positivity), Real.sqrt_sq hc]

theorem l2norm_pos_of_entry {D : ℕ} (v : Fin D → ℝ) (i : Fin D)
    (hi : v i ≠ 0) : 0 < l2norm v := by
  apply Real.sqrt_pos.mpr
  have hterm : 0 < v i ^ 2 := by positivity
  have hle : v i ^ 2 ≤ ∑ e, v e ^ 2 :=
    Finset.single_le_sum (f := fun e => v e ^ 2)
      (fun e _ => sq_nonneg _) (Finset.mem_univ i)
  linarith

/-! ### C1: total loss decomposes into its three components -/

/-- C1: for every configuration, weight state, dead-feature counters, input
batch and noise draw, the `loss` field of the `TrainStepOutput` returned by
one training forward pass equals the sum of its `mse_loss`, `l1_loss` and
`ghost_grad_loss` fields, each of which is separately retrievable from the
output structure. -/
theorem total_loss_eq_sum_of_components {N dIn dSae : ℕ} (cfg : Config)
    (w : Weights dIn dSae) (counters : Fin dSae → ℕ)
    (x : Fin N → Fin dIn → ℝ) (noise : Fin N → Fin dSae → ℝ) :
    (trainingForwardPass cfg w counters x noise).loss =
      (trainingForwardPass cfg w counters x noise).mse_loss +
        (trainingForwardPass cfg w counters x noise).l1_loss +
        (trainingForwardPass cfg w counters x noise).ghost_grad_loss := rfl

/-! ### C6: decoder renormalization -/

/-- C6: whenever every row of `W_dec` is nonzero, after
`set_decoder_norm_to_unit_norm` every row has L2 norm exactly 1 — whatever
the input scale of the rows — and the operation is idempotent: applying it a
second time leaves `W_dec` unchanged. -/
theorem setDecoderNorm_unit_and_idempotent {dIn dSae : ℕ}
    (Wdec : Fin dSae → Fin dIn → ℝ)
    (h : ∀ j, ∃ i, Wdec j i ≠ 0) :
    (∀ j, l2norm (setDecoderNormToUnitNorm Wdec j) = 1) ∧
      setDecoderNormToUnitNorm (setDecoderNormToUnitNorm Wdec) =
        setDecoderNormToUnitNorm Wdec := by
  have hpos : ∀ j, 0 < l2norm (Wdec j) := by
    intro j
    obtain ⟨i, hi⟩ := h j
    exact l2norm_pos_of_entry _ i hi
  have hunit : ∀ j, l2norm (setDecoderNormToUnitNorm Wdec j) = 1 := by
    intro j
    show l2norm (fun i => Wdec j i / l2norm (Wdec j)) = 1
    rw [l2norm_div _ _ (hpos j).le, div_self (hpos j).ne']
  refine ⟨hunit, ?_⟩
  funext j i
  show setDecoderNormToUnitNorm Wdec j i / l2norm (setDecoderNormToUnitNorm Wdec j) = _
  rw [hunit j, div_one]

/-- Witness for C6 at a concrete weight matrix with a single row `(2)`. -/
theorem setDecoderNorm_unit_and_idempotent_witness :
    (∀ j, l2norm (setDecoderNormToUnitNorm (fun (_ : Fin 1) (_ : Fin 1) => (2 : ℝ)) j) = 1) ∧
      setDecoderNormToUnitNorm (setDecoderNormToUnitNorm (fun (_ : Fin 1) (_ : Fin 1) => (2 : ℝ))) =
        setDecoderNormToUnitNorm (fun (_ : Fin 1) (_ : Fin 1) => (2 : ℝ)) :=
  setDecoderNorm_unit_and_idempotent _ (fun _ => ⟨0, by norm_num⟩)

/-! ### C7: gradient projection -/

/-- C7: for every decoder weight state and every gradient assigned to
`W_dec`, after `remove_gradient_parallel_to_decoder_directions` the dot
product of each decoder row with its own modified gradient row is exactly
zero, the weights themselves are returned unchanged — only the gradient is
modified — and the removed part of each gradient row is parallel to the
corresponding decoder row's direction. -/
theorem removeGradientParallel_ortho_and_frame {dIn dSae : ℕ}
    (Wdec grad : Fin dSae → Fin dIn → ℝ) :
    (removeGradientParallelToDecoderDirections Wdec grad).1 = Wdec ∧
      (∀ j, (∑ i, Wdec j i *
        (removeGradientParallelToDecoderDirections Wdec grad).2 j i) = 0) ∧
      (∀ j, ∃ c : ℝ, ∀ i,
        grad j i -
          (removeGradientParallelToDecoderDirections Wdec grad).2 j i =
            c * Wdec j i) := by
  refine ⟨rfl, ?_, ?_⟩
  · intro j
    by_cases hz : (∑ e, Wdec j e ^ 2) = 0
    · have hzero : ∀ e, Wdec j e = 0 := by
        intro e
        have := (Finset.sum_eq_zero_iff_of_nonneg
          (fun e _ => sq_nonneg (Wdec j e))).mp hz e (Finset.mem_univ e)
        exact pow_eq_zero_iff (n := 2) (by norm_num) |>.mp this
      apply Finset.sum_eq_zero
      intro i _
      rw [hzero i, zero_mul]
    · show (∑ i, Wdec j i * (grad j i -
        ((∑ e, grad j e * Wdec j e) / (∑ e, Wdec j e ^ 2)) * Wdec j i)) = 0
      have hexp : ∀ i, Wdec j i * (grad j i -
          ((∑ e, grad j e * Wdec j e) / (∑ e, Wdec j e ^ 2)) * Wdec j i) =
          Wdec j i * grad j i -
          ((∑ e, grad j e * Wdec j e) / (∑ e, Wdec j e ^ 2)) * Wdec j i ^ 2 := by
        intro i; ring
      rw [Finset.sum_congr rfl fun i _ => hexp i, Finset.sum_sub_distrib,
        ← Finset.mul_sum, div_mul_cancel₀ _ hz]
      have hcomm : (∑ i, Wdec j i * grad j i) = ∑ e, grad j e * Wdec j e :=
        Finset.sum_congr rfl fun i _ => mul_comm _ _
      rw [hcomm, sub_self]
  · intro j
    refine ⟨(∑ e, grad j e * Wdec j e) / (∑ e, Wdec j e ^ 2), fun i => ?_⟩
    show grad j i - (grad j i - _) = _
    ring

/-! ### C4: ghost loss vanishes with no dead features or ghost grads off -/

/-- C4: when ghost gradients are disabled, or when no feature is currently
dead (every inactivity counter below `dead_feature_window` — in particular
at training start, where every counter is 0), the ghost-gradient term of a
training forward pass is exactly zero, and it carries no gradient: along any
path through weight space it has derivative zero. -/
theorem ghostTerm_zero_of_no_dead {N dIn dSae : ℕ} (cfg : Config)
    (counters : Fin dSae → ℕ)
    (h : cfg.use_ghost_grads = false ∨
      ∀ j : Fin dSae, counters j < cfg.dead_feature_window) :
    ∀ (w : Weights dIn dSae) (x : Fin N → Fin dIn → ℝ)
      (noise : Fin N → Fin dSae → ℝ),
      (trainingForwardPass cfg w counters x noise).ghost_grad_loss = 0 ∧
      ∀ (wp : ℝ → Weights dIn dSae) (t : ℝ),
        HasDerivAt (fun s =>
          (trainingForwardPass cfg (wp s) counters x noise).ghost_grad_loss)
          0 t := by
  have hcond : ¬(cfg.use_ghost_grads = true ∧
      ∃ j, deadMask cfg counters j = true) := by
    rintro ⟨hg, j, hj⟩
    rcases h with h0 | h0
    · rw [h0] at hg; exact Bool.false_ne_true hg
    · exact absurd (of_decide_eq_true hj) (Nat.not_le.mpr (h0 j))
  have hz : ∀ (w : Weights dIn dSae) (x : Fin N → Fin dIn → ℝ)
      (noise : Fin N → Fin dSae → ℝ),
      (trainingForwardPass cfg w counters x noise).ghost_grad_loss = 0 := by
    intro w x noise
    show ghostTerm cfg w counters x noise = 0
    unfold ghostTerm
    exact if_neg hcond
  intro w x noise
  refine ⟨hz w x noise, ?_⟩
  intro wp t
  have hfun : (fun s =>
      (trainingForwardPass cfg (wp s) counters x noise).ghost_grad_loss) =
      fun _ => (0 : ℝ) :=
    funext fun s => hz (wp s) x noise
  rw [hfun]
  exact hasDerivAt_const t 0

/-- Witness for C4 at a concrete config (window 1, ghost grads on) with all
counters at 0, i.e. training start. -/
theorem ghostTerm_zero_of_no_dead_witness :
    (@trainingForwardPass 1 1 1
        ⟨1, 0, true, 1, false, false, true⟩
        ⟨fun _ _ => 1, fun _ => 0, fun _ _ => 1, fun _ => 0⟩
        (fun _ => 0) (fun _ _ => 1) (fun _ _ => 0)).ghost_grad_loss = 0 ∧
      ∀ (wp : ℝ → Weights 1 1) (t : ℝ),
        HasDerivAt (fun s =>
          (trainingForwardPass (N := 1) ⟨1, 0, true, 1, false, false, true⟩
            (wp s) (fun _ => 0) (fun _ _ => 1) (fun _ _ => 0)).ghost_grad_loss)
          0 t :=
  ghostTerm_zero_of_no_dead ⟨1, 0, true, 1, false, false, true⟩ (fun _ => 0)
    (Or.inr fun _ => Nat.zero_lt_one)
    ⟨fun _ _ => 1, fun _ => 0, fun _ _ => 1, fun _ => 0⟩
    (fun _ _ => 1) (fun _ _ => 0)

/-! ### C5: the sparsity penalty formulas -/

/-- C5: the `l1_loss` of a training forward pass is `l1Loss` of its feature
activations, and for every batch of feature activations: when
`scale_sparsity_penalty_by_decoder_norm` is false the sparsity loss equals
`l1_coefficient` times the batch mean of the per-example sum of absolute
feature activations; when it is true, it equals `l1_coefficient` times the
batch mean of the L1 norm of the feature activations element-wise scaled by
the L2 norm of the corresponding decoder row. -/
theorem l1Loss_formula {N dIn dSae : ℕ} (cfg : Config) (w : Weights dIn dSae)
    (featureActs : Fin N → Fin dSae → ℝ) :
    (∀ (counters : Fin dSae → ℕ) (x : Fin N → Fin dIn → ℝ)
        (noise : Fin N → Fin dSae → ℝ),
      (trainingForwardPass cfg w counters x noise).l1_loss =
        l1Loss cfg w (trainingForwardPass cfg w counters x noise).feature_acts) ∧
    (cfg.scale_sparsity_penalty_by_decoder_norm = false →
      l1Loss cfg w featureActs =
        cfg.l1_coefficient * mean (fun n => ∑ j, |featureActs n j|)) ∧
    (cfg.scale_sparsity_penalty_by_decoder_norm = true →
      l1Loss cfg w featureActs =
        cfg.l1_coefficient *
          mean (fun n => ∑ j, |featureActs n j * l2norm (w.W_dec j)|)) := by
  refine ⟨fun _ _ _ => rfl, fun hf => ?_, fun ht => ?_⟩
  · unfold l1Loss
    rw [hf]
    simp
  · unfold l1Loss rowNorms
    rw [ht]
    simp

/-- Witness for C5: both branch hypotheses discharged at concrete configs,
weights and activations. -/
theorem l1Loss_formula_witness :
    (l1Loss (N := 1) ⟨2, 0, false, 1, false, false, true⟩
        (⟨fun _ _ => 1, fun _ => 0, fun _ _ => 3, fun _ => 0⟩ : Weights 1 1)
        (fun _ _ => 5) =
      2 * mean (fun _ : Fin 1 => ∑ _j : Fin 1, |(5 : ℝ)|)) ∧
    (l1Loss (N := 1) ⟨2, 0, false, 1, false, true, true⟩
        (⟨fun _ _ => 1, fun _ => 0, fun _ _ => 3, fun _ => 0⟩ : Weights 1 1)
        (fun _ _ => 5) =
      2 * mean (fun _ : Fin 1 => ∑ _j : Fin 1,
        |(5 : ℝ) * l2norm (fun _ : Fin 1 => (3 : ℝ))|)) :=
  ⟨(l1Loss_formula ⟨2, 0, false, 1, false, false, true⟩
      ⟨fun _ _ => 1, fun _ => 0, fun _ _ => 3, fun _ => 0⟩
      (fun _ _ => 5)).2.1 rfl,
   (l1Loss_formula ⟨2, 0, false, 1, false, true, true⟩
      ⟨fun _ _ => 1, fun _ => 0, fun _ _ => 3, fun _ => 0⟩
      (fun _ _ => 5)).2.2 rfl⟩

/-! ### C8: determinism without noise, variation with noise -/

/-- Evaluation of `forward` on the one-dimensional SAE with identity-like
weights used to witness noise-dependence. -/
theorem forward_one_dim_eval (s c : ℝ) (hc : 0 ≤ 1 + s * c) :
    forward ⟨0, s, false, 1, false, false, true⟩
      (⟨fun _ _ => 1, fun _ => 0, fun _ _ => 1, fun _ => 0⟩ : Weights 1 1)
      (fun _ => 1) (fun _ => c) = fun _ => 1 + s * c := by
  funext i
  show (∑ j : Fin 1, relu ((∑ e : Fin 1, 1 * 1) + 0 + s * c) * 1) + 0 =
    1 + s * c
  rw [Fin.sum_univ_one, Fin.sum_univ_one, relu]
  rw [max_eq_left (by linarith)]
  ring

/-- C8: with `noise_scale = 0`, `forward` is a deterministic function of its
input — two calls with any two noise draws give identical output; with any
`noise_scale > 0` there are weights, an input and two noise draws for which
the two outputs differ from each other and from the noiseless output (the
output under the zero draw). -/
theorem forward_noise_behaviour :
    (∀ (dIn dSae : ℕ) (cfg : Config) (w : Weights dIn dSae)
        (x : Fin dIn → ℝ) (n1 n2 : Fin dSae → ℝ), cfg.noise_scale = 0 →
        forward cfg w x n1 = forward cfg w x n2) ∧
    (∀ s : ℝ, 0 < s →
      ∃ (cfg : Config) (w : Weights 1 1) (x : Fin 1 → ℝ)
        (n1 n2 : Fin 1 → ℝ),
        cfg.noise_scale = s ∧
        forward cfg w x n1 ≠ forward cfg w x n2 ∧
        forward cfg w x n1 ≠ forward cfg w x (fun _ => 0) ∧
        forward cfg w x n2 ≠ forward cfg w x (fun _ => 0)) := by
  constructor
  · intro dIn dSae cfg w x n1 n2 h
    funext i
    simp [forward, decode, encode, hiddenPre, h]
  · intro s hs
    refine ⟨⟨0, s, false, 1, false, false, true⟩,
      ⟨fun _ _ => 1, fun _ => 0, fun _ _ => 1, fun _ => 0⟩,
      fun _ => 1, fun _ => 1, fun _ => 2, rfl, ?_, ?_, ?_⟩
    · rw [forward_one_dim_eval s 1 (by linarith),
        forward_one_dim_eval s 2 (by linarith)]
      intro h
      have hc := congrFun h 0
      simp only [mul_one, mul_zero, add_zero] at hc
      linarith
    · rw [forward_one_dim_eval s 1 (by linarith),
        forward_one_dim_eval s 0 (by linarith)]
      intro h
      have hc := congrFun h 0
      simp only [mul_one, mul_zero, add_zero] at hc
      linarith
    · rw [forward_one_dim_eval s 2 (by linarith),
        forward_one_dim_eval s 0 (by linarith)]
      intro h
      have hc := congrFun h 0
      simp only [mul_one, mul_zero, add_zero] at hc
      linarith

/-- Witness for C8: the determinism half at concrete draws 5 and 7, and the
noise half at `noise_scale = 100`. -/
theorem forward_noise_behaviour_witness :
    (forward ⟨0, 0, false, 1, false, false, true⟩
        (⟨fun _ _ => 1, fun _ => 0, fun _ _ => 1, fun _ => 0⟩ : Weights 1 1)
        (fun _ => 1) (fun _ => 5) =
      forward ⟨0, 0, false, 1, false, false, true⟩
        (⟨fun _ _ => 1, fun _ => 0, fun _ _ => 1, fun _ => 0⟩ : Weights 1 1)
        (fun _ => 1) (fun _ => 7)) ∧
    (∃ (cfg : Config) (w : Weights 1 1) (x : Fin 1 → ℝ)
        (n1 n2 : Fin 1 → ℝ),
      cfg.noise_scale = 100 ∧
      forward cfg w x n1 ≠ forward cfg w x n2 ∧
      forward cfg w x n1 ≠ forward cfg w x (fun _ => 0) ∧
      forward cfg w x n2 ≠ forward cfg w x (fun _ => 0)) :=
  ⟨forward_noise_behaviour.1 1 1 _ _ _ _ _ rfl,
   forward_noise_behaviour.2 100 (by norm_num)⟩

/-! ### C2: the dense_batch MSE formula and the epsilon placement -/

/-- The reference formula the claim asserts for the per-item loss, with the
epsilon placed inside the square root:
`(input - target)^2 / sqrt(eps + sum((target - batch_mean target)^2))`. -/
def perItemMseInsideSqrt {N D : ℕ} (preds target : Fin N → Fin D → ℝ) :
    Fin N → Fin D → ℝ :=
  fun n d => (preds n d - target n d) ^ 2 /
    Real.sqrt (eps + ∑ e, batchCentered target n e ^ 2)

/-- A concrete 2-by-1 prediction batch used to separate the two epsilon
placements. -/
def cePreds : Fin 2 → Fin 1 → ℝ := fun n _ => if n = 0 then 2 else 0

/-- A concrete 2-by-1 target batch used to separate the two epsilon
placements. -/
def ceTarget : Fin 2 → Fin 1 → ℝ := fun n _ => if n = 0 then 1 else 0

/-- C2 counterexample: the per-item `dense_batch` loss function does not
reproduce the formula with the epsilon inside the square root — at the
concrete input above the two epsilon placements give different values, so
they are not both "preserved exactly" by the one per-item function. -/
theorem perItem_eps_inside_sqrt_counterexample :
    perItemMseDenseBatch cePreds ceTarget 0 0 ≠
      perItemMseInsideSqrt cePreds ceTarget 0 0 := by
  have hc : batchCentered ceTarget 0 0 = 1 / 2 := by
    norm_num [batchCentered, mean, ceTarget, Fin.sum_univ_two]
  have hl : l2norm (fun e => batchCentered ceTarget 0 e) = 1 / 2 := by
    unfold l2norm
    rw [Fin.sum_univ_one]
    dsimp only
    rw [hc]
    exact Real.sqrt_sq (by norm_num)
  have hsum : (∑ e : Fin 1, batchCentered ceTarget 0 e ^ 2) = 1 / 4 := by
    rw [Fin.sum_univ_one, hc]
    norm_num
  have hpt : cePreds 0 0 - ceTarget 0 0 = 1 := by
    norm_num [cePreds, ceTarget]
  unfold perItemMseDenseBatch perItemMseInsideSqrt
  rw [hl, hsum, hpt]
  have hs : Real.sqrt (eps + 1 / 4) ≠ eps + 1 / 2 := by
    intro he
    have h2 := Real.sq_sqrt (show (0 : ℝ) ≤ eps + 1 / 4 by norm_num [eps])
    rw [he] at h2
    rw [eps] at h2
    norm_num at h2
  have hbpos : 0 < Real.sqrt (eps + 1 / 4) :=
    Real.sqrt_pos.mpr (by norm_num [eps])
  intro h
  rw [div_eq_div_iff (by norm_num [eps]) hbpos.ne'] at h
  rw [one_pow, one_mul, one_mul] at h
  exact hs h

/-- C2 (amended): when `mse_loss_normalization` is `dense_batch`, the MSE
loss of a training forward pass equals the mean over the batch of the sum
over the input dimension of `(input - target)^2 / (eps + ||target -
batch_mean(target)||)` with `eps = 1e-6`, and the single per-item loss
function used at both call sites (the reduced MSE and the ghost-loss
residual) places the epsilon outside the square root, added to the
centered-target norm — it matches the epsilon-inside-the-square-root
reference formula only approximately, not exactly. -/
theorem mse_dense_batch_formula {N dIn dSae : ℕ} (cfg : Config)
    (h : cfg.mse_loss_dense_batch = true) :
    (∀ (w : Weights dIn dSae) (counters : Fin dSae → ℕ)
        (x : Fin N → Fin dIn → ℝ) (noise : Fin N → Fin dSae → ℝ),
      (trainingForwardPass cfg w counters x noise).mse_loss =
        mean (fun n => ∑ d,
          ((trainingForwardPass cfg w counters x noise).sae_out n d - x n d) ^ 2 /
            (eps + l2norm (fun e => batchCentered x n e)))) ∧
    (∀ (preds target : Fin N → Fin dIn → ℝ) (n : Fin N) (d : Fin dIn),
      mseLossFn cfg preds target n d =
        (preds n d - target n d) ^ 2 /
          (eps + l2norm (fun e => batchCentered target n e))) := by
  constructor
  · intro w counters x noise
    show fwdMseLoss cfg w x noise = _
    unfold fwdMseLoss mseLossFn
    rw [h]
    rfl
  · intro preds target n d
    unfold mseLossFn
    rw [h]
    rfl

/-- Witness for C2 (amended) at a concrete `dense_batch` configuration and
concrete 1-by-1 batches. -/
theorem mse_dense_batch_formula_witness :
    mseLossFn (N := 1) (D := 1) ⟨1, 0, false, 1, true, false, true⟩
        (fun _ _ => 3) (fun _ _ => 1) 0 0 =
      ((3 : ℝ) - 1) ^ 2 /
        (eps + l2norm (fun e : Fin 1 =>
          batchCentered (N := 1) (fun _ _ => (1 : ℝ)) 0 e)) :=
  (@mse_dense_batch_formula 1 1 1
    ⟨1, 0, false, 1, true, false, true⟩ rfl).2
    (fun _ _ => 3) (fun _ _ => 1) 0 0

/-! ### C3: ghost gradients with ten dead features -/

/-- The ghost-gradient scenario config: ghost grads on, window 5, standard
MSE, no noise. -/
def ghostCfg : Config := ⟨1 / 1000, 0, true, 5, false, false, true⟩

/-- Counters with feature 0 live (just fired) and features 1..10 dead
(counter at three times the window). -/
def ghostCounters : Fin 11 → ℕ := fun j => if j = 0 then 0 else 15

/-- The dead-feature mask of the scenario. -/
def ghostMask : Fin 11 → Bool := deadMask ghostCfg ghostCounters

/-- The scenario input batch (one item, one dimension, value 1). -/
def ghostX : Fin 1 → Fin 1 → ℝ := fun _ _ => 1

/-- The scenario reconstruction (zero, as produced by the zero encoder). -/
def ghostSaeOut : Fin 1 → Fin 1 → ℝ := fun _ _ => 0

/-- The scenario primary per-item MSE (squared error of 0 against 1). -/
def ghostPerItemMse : Fin 1 → Fin 1 → ℝ := fun _ _ => 1

/-- The scenario pre-activations (zero, from the zero encoder). -/
def ghostHp : Fin 1 → Fin 11 → ℝ := fun _ _ => 0

/-- The scenario decoder: live row 0, dead rows at 1/10 each. -/
def ghostWdec : Fin 11 → Fin 1 → ℝ := fun j _ => if j = 0 then 0 else 1 / 10

/-- Uniform perturbation of all dead decoder rows to `t`; at `t = 1/10`
this is `ghostWdec`. -/
def ghostWdecP (t : ℝ) : Fin 11 → Fin 1 → ℝ :=
  fun j _ => if j = 0 then 0 else t

/-- Uniform perturbation of all dead features' pre-activations to `t`; at
`t = 0` this is `ghostHp`. -/
def ghostHpP (t : ℝ) : Fin 1 → Fin 11 → ℝ :=
  fun _ j => if j = 0 then 0 else t

/-- Perturbation of the live decoder row to `t`; on the dead rows it agrees
with `ghostWdec`. -/
def ghostWdecLiveP (t : ℝ) : Fin 11 → Fin 1 → ℝ :=
  fun j _ => if j = 0 then t else 1 / 10

/-- Perturbation of the live feature's pre-activation to `t`; on the dead
features it agrees with `ghostHp`. -/
def ghostHpLiveP (t : ℝ) : Fin 1 → Fin 11 → ℝ :=
  fun _ j => if j = 0 then t else 0

/-- The scenario weights (zero encoder, decoder `ghostWdec`) feeding the
full training forward pass. -/
def ghostW : Weights 1 11 := ⟨fun _ _ => 0, fun _ => 0, ghostWdec, fun _ => 0⟩

/-- The zero noise draw of the scenario. -/
def ghostZeroNoise : Fin 1 → Fin 11 → ℝ := fun _ _ => 0

/-- The detached norm-matching scale factor of the scenario. -/
def ghostScaleVal : ℝ := 1 / (eps + 2 * 1)

/-- The detached ghost per-item MSE of the scenario. -/
def ghostResidVal : ℝ := (1 * ghostScaleVal - 1) ^ 2

/-- The detached MSE-matching rescale factor of the scenario. -/
def ghostRescaleVal : ℝ := 1 / (ghostResidVal + eps)

theorem mean_one (f : Fin 1 → ℝ) : mean f = f 0 := by
  simp [mean]

theorem sum_ite_eleven (c d : ℝ) :
    (∑ j : Fin 11, if j = 0 then c else d) = c + 10 * d := by
  rw [Fin.sum_univ_succ]
  simp only [if_pos rfl, Fin.succ_ne_zero, if_false, ite_false,
    Finset.sum_const, Finset.card_univ, Fintype.card_fin, nsmul_eq_mul]
  push_cast
  ring

theorem ghostMask_eq : ∀ j : Fin 11,
    ghostMask j = if j = 0 then false else true := by decide

theorem ghostOut_dead_uniform (hp : Fin 1 → Fin 11 → ℝ)
    (wdec : Fin 11 → Fin 1 → ℝ) (e : ℝ)
    (h : ∀ j : Fin 11, j ≠ 0 → Real.exp (hp 0 j) * wdec j 0 = e)
    (n : Fin 1) (i : Fin 1) :
    ghostOut ghostMask hp wdec n i = 10 * e := by
  have hn : n = 0 := Subsingleton.elim n 0
  have hi : i = 0 := Subsingleton.elim i 0
  subst hn
  subst hi
  unfold ghostOut
  have hs : ∀ j : Fin 11,
      (if ghostMask j then Real.exp (hp 0 j) * wdec j 0 else 0) =
        (if j = 0 then 0 else e) := by
    intro j
    rw [ghostMask_eq j]
    by_cases hj : j = 0
    · simp [hj]
    · simp [hj, h j hj]
  rw [Finset.sum_congr rfl fun j _ => hs j, sum_ite_eleven]
  ring

theorem ghostOut_detached_eval (n i : Fin 1) :
    ghostOut ghostMask ghostHp ghostWdec n i = 1 := by
  have h10 : ∀ j : Fin 11, j ≠ 0 →
      Real.exp (ghostHp 0 j) * ghostWdec j 0 = 1 / 10 := by
    intro j hj
    simp [ghostHp, ghostWdec, hj, Real.exp_zero]
  rw [ghostOut_dead_uniform ghostHp ghostWdec (1 / 10) h10 n i]
  norm_num

theorem cggl_eval (hpA : Fin 1 → Fin 11 → ℝ) (WA : Fin 11 → Fin 1 → ℝ)
    (g : ℝ) (hA : ∀ n i, ghostOut ghostMask hpA WA n i = g) :
    calculateGhostGradLoss ghostCfg ghostMask ghostX ghostSaeOut
      ghostPerItemMse hpA WA ghostHp ghostWdec =
      ghostRescaleVal * (g * ghostScaleVal - 1) ^ 2 := by
  simp [calculateGhostGradLoss, mean_one, mseLossFn, perItemMseStandard,
    ghostX, ghostSaeOut, ghostPerItemMse, l2norm, Fin.sum_univ_one,
    hA, ghostOut_detached_eval, Real.sqrt_one, ghostCfg,
    ghostRescaleVal, ghostResidVal, ghostScaleVal]

/-- Changing the active (gradient-carrying) pre-activations and decoder rows
only at live features leaves the ghost loss unchanged: the active inputs
enter only through the dead-masked ghost reconstruction. -/
theorem cggl_congr_active {N dIn dSae : ℕ} (cfg : Config)
    (mask : Fin dSae → Bool) (x saeOut perItemMse : Fin N → Fin dIn → ℝ)
    (hpA hpB : Fin N → Fin dSae → ℝ) (WA WB : Fin dSae → Fin dIn → ℝ)
    (hpD : Fin N → Fin dSae → ℝ) (WD : Fin dSae → Fin dIn → ℝ)
    (h1 : ∀ n j, mask j = true → hpB n j = hpA n j)
    (h2 : ∀ j i, mask j = true → WB j i = WA j i) :
    calculateGhostGradLoss cfg mask x saeOut perItemMse hpB WB hpD WD =
      calculateGhostGradLoss cfg mask x saeOut perItemMse hpA WA hpD WD := by
  have hg : ghostOut mask hpB WB = ghostOut mask hpA WA := by
    funext n i
    unfold ghostOut
    refine Finset.sum_congr rfl fun j _ => ?_
    by_cases hm : mask j = true
    · rw [if_pos hm, if_pos hm, h1 n j hm, h2 j i hm]
    · rw [if_neg hm, if_neg hm]
  simp only [calculateGhostGradLoss, hg]

/-- C3: in the scenario with ghost gradients enabled and ten of the eleven
features dead (counters at three times `dead_feature_window`, the remaining
feature live with counter 0), (1) the ghost-gradient loss of the training
forward pass is nonzero; (2) in general the ghost loss is unchanged by any
modification of the active pre-activations and decoder rows at live
features, so backpropagating it puts exactly zero gradient on the `W_enc`
columns and `W_dec` rows of live features; (3) concretely, perturbing the
live decoder row or the live feature's pre-activation gives derivative
exactly 0; and (4,5) perturbing the dead decoder rows, or the dead
features' pre-activations (hence the dead `W_enc` columns), gives a nonzero
derivative. -/
theorem ghost_grad_nonzero_and_gradient_split :
    (trainingForwardPass ghostCfg ghostW ghostCounters ghostX
        ghostZeroNoise).ghost_grad_loss ≠ 0 ∧
    (∀ {N dIn dSae : ℕ} (cfg : Config) (mask : Fin dSae → Bool)
        (x saeOut perItemMse : Fin N → Fin dIn → ℝ)
        (hpA hpB : Fin N → Fin dSae → ℝ) (WA WB : Fin dSae → Fin dIn → ℝ)
        (hpD : Fin N → Fin dSae → ℝ) (WD : Fin dSae → Fin dIn → ℝ),
      (∀ n j, mask j = true → hpB n j = hpA n j) →
      (∀ j i, mask j = true → WB j i = WA j i) →
      calculateGhostGradLoss cfg mask x saeOut perItemMse hpB WB hpD WD =
        calculateGhostGradLoss cfg mask x saeOut perItemMse hpA WA hpD WD) ∧
    (HasDerivAt (fun t => calculateGhostGradLoss ghostCfg ghostMask ghostX
        ghostSaeOut ghostPerItemMse ghostHp (ghostWdecLiveP t) ghostHp
        ghostWdec) 0 (1 / 10) ∧
      HasDerivAt (fun t => calculateGhostGradLoss ghostCfg ghostMask ghostX
        ghostSaeOut ghostPerItemMse (ghostHpLiveP t) ghostWdec ghostHp
        ghostWdec) 0 0) ∧
    (∃ c : ℝ, c ≠ 0 ∧
      HasDerivAt (fun t => calculateGhostGradLoss ghostCfg ghostMask ghostX
        ghostSaeOut ghostPerItemMse ghostHp (ghostWdecP t) ghostHp
        ghostWdec) c (1 / 10)) ∧
    (∃ c : ℝ, c ≠ 0 ∧
      HasDerivAt (fun t => calculateGhostGradLoss ghostCfg ghostMask ghostX
        ghostSaeOut ghostPerItemMse (ghostHpP t) ghostWdec ghostHp
        ghostWdec) c 0) := by
  have hval : calculateGhostGradLoss ghostCfg ghostMask ghostX ghostSaeOut
      ghostPerItemMse ghostHp ghostWdec ghostHp ghostWdec =
      ghostRescaleVal * (1 * ghostScaleVal - 1) ^ 2 :=
    cggl_eval ghostHp ghostWdec 1 ghostOut_detached_eval
  have hlive : ∀ j : Fin 11, ghostMask j = true → j ≠ 0 := by
    intro j hm h0
    rw [h0] at hm
    rw [ghostMask_eq 0] at hm
    simp at hm
  refine ⟨?_, ?_, ⟨?_, ?_⟩, ?_, ?_⟩
  · -- nonzero ghost loss of the forward pass
    show ghostTerm ghostCfg ghostW ghostCounters ghostX ghostZeroNoise ≠ 0
    unfold ghostTerm
    rw [if_pos ⟨rfl, ⟨1, by decide⟩⟩]
    have h1 : fwdHiddenPre ghostCfg ghostW ghostX ghostZeroNoise = ghostHp := by
      funext n j
      simp [fwdHiddenPre, hiddenPre, ghostW, ghostX, ghostZeroNoise, ghostHp,
        ghostCfg]
    have h2 : fwdSaeOut ghostCfg ghostW ghostX ghostZeroNoise = ghostSaeOut := by
      funext n i
      simp [fwdSaeOut, decode, fwdFeatureActs, h1, relu, ghostSaeOut, ghostHp,
        show ghostW.b_dec = (fun _ => (0 : ℝ)) from rfl]
    have h3 : mseLossFn ghostCfg (fwdSaeOut ghostCfg ghostW ghostX ghostZeroNoise)
        ghostX = ghostPerItemMse := by
      rw [h2]
      funext n i
      simp [mseLossFn, ghostCfg, perItemMseStandard, ghostSaeOut, ghostX,
        ghostPerItemMse]
    rw [h3, h2, h1]
    rw [show deadMask ghostCfg ghostCounters = ghostMask from rfl,
      show ghostW.W_dec = ghostWdec from rfl, hval]
    norm_num [ghostRescaleVal, ghostResidVal, ghostScaleVal, eps]
  · -- zero gradient on live features, in general
    intro N dIn dSae cfg mask x saeOut perItemMse hpA hpB WA WB hpD WD h1 h2
    exact cggl_congr_active cfg mask x saeOut perItemMse hpA hpB WA WB hpD WD h1 h2
  · -- live decoder row perturbation: derivative 0
    have hconst : (fun t => calculateGhostGradLoss ghostCfg ghostMask ghostX
        ghostSaeOut ghostPerItemMse ghostHp (ghostWdecLiveP t) ghostHp
        ghostWdec) = fun _ => calculateGhostGradLoss ghostCfg ghostMask ghostX
        ghostSaeOut ghostPerItemMse ghostHp ghostWdec ghostHp ghostWdec := by
      funext t
      refine cggl_congr_active ghostCfg ghostMask ghostX ghostSaeOut
        ghostPerItemMse ghostHp ghostHp ghostWdec (ghostWdecLiveP t)
        ghostHp ghostWdec (fun _ _ _ => rfl) ?_
      intro j i hm
      simp [ghostWdecLiveP, ghostWdec, hlive j hm]
    rw [hconst]
    exact hasDerivAt_const _ _
  · -- live pre-activation perturbation: derivative 0
    have hconst : (fun t => calculateGhostGradLoss ghostCfg ghostMask ghostX
        ghostSaeOut ghostPerItemMse (ghostHpLiveP t) ghostWdec ghostHp
        ghostWdec) = fun _ => calculateGhostGradLoss ghostCfg ghostMask ghostX
        ghostSaeOut ghostPerItemMse ghostHp ghostWdec ghostHp ghostWdec := by
      funext t
      refine cggl_congr_active ghostCfg ghostMask ghostX ghostSaeOut
        ghostPerItemMse ghostHp (ghostHpLiveP t) ghostWdec ghostWdec
        ghostHp ghostWdec ?_ (fun _ _ _ => rfl)
      intro n j hm
      simp [ghostHpLiveP, ghostHp, hlive j hm]
    rw [hconst]
    exact hasDerivAt_const _ _
  · -- dead decoder rows: nonzero derivative
    have hfunP : (fun t => calculateGhostGradLoss ghostCfg ghostMask ghostX
        ghostSaeOut ghostPerItemMse ghostHp (ghostWdecP t) ghostHp ghostWdec) =
        fun t => ghostRescaleVal * (10 * t * ghostScaleVal - 1) ^ 2 := by
      funext t
      have he : ∀ j : Fin 11, j ≠ 0 →
          Real.exp (ghostHp 0 j) * ghostWdecP t j 0 = t := by
        intro j hj
        simp [ghostHp, ghostWdecP, hj, Real.exp_zero]
      exact cggl_eval ghostHp (ghostWdecP t) (10 * t)
        (ghostOut_dead_uniform ghostHp (ghostWdecP t) t he)
    rw [hfunP]
    have h1 : HasDerivAt (fun t : ℝ => 10 * t) 10 (1 / 10) := by
      simpa using (hasDerivAt_id (1 / 10 : ℝ)).const_mul 10
    have h4 := (((h1.mul_const ghostScaleVal).sub_const 1).pow 2).const_mul
      ghostRescaleVal
    refine ⟨_, ?_, h4⟩
    norm_num [ghostRescaleVal, ghostResidVal, ghostScaleVal, eps]
  · -- dead pre-activations (dead encoder columns): nonzero derivative
    have hfunE : (fun t => calculateGhostGradLoss ghostCfg ghostMask ghostX
        ghostSaeOut ghostPerItemMse (ghostHpP t) ghostWdec ghostHp ghostWdec) =
        fun t => ghostRescaleVal *
          (10 * (Real.exp t * (1 / 10)) * ghostScaleVal - 1) ^ 2 := by
      funext t
      have he : ∀ j : Fin 11, j ≠ 0 →
          Real.exp (ghostHpP t 0 j) * ghostWdec j 0 = Real.exp t * (1 / 10) := by
        intro j hj
        simp [ghostHpP, ghostWdec, hj]
      exact cggl_eval (ghostHpP t) ghostWdec (10 * (Real.exp t * (1 / 10)))
        (ghostOut_dead_uniform (ghostHpP t) ghostWdec (Real.exp t * (1 / 10)) he)
    rw [hfunE]
    have h1 := ((Real.hasDerivAt_exp 0).mul_const (1 / 10)).const_mul (10 : ℝ)
    have h4 := (((h1.mul_const ghostScaleVal).sub_const 1).pow 2).const_mul
      ghostRescaleVal
    refine ⟨_, ?_, h4⟩
    norm_num [ghostRescaleVal, ghostResidVal, ghostScaleVal, eps, Real.exp_zero]

/-- Witness for C3: the live-invariance part applied at the scenario, with
a concrete modification of the live feature's pre-activation and decoder
row and the agreement-on-dead-features hypotheses discharged. -/
theorem ghost_grad_nonzero_and_gradient_split_witness :
    calculateGhostGradLoss ghostCfg ghostMask ghostX ghostSaeOut
      ghostPerItemMse (ghostHpLiveP 3) (ghostWdecLiveP 7) ghostHp ghostWdec =
      calculateGhostGradLoss ghostCfg ghostMask ghostX ghostSaeOut
        ghostPerItemMse ghostHp ghostWdec ghostHp ghostWdec := by
  have hWd : ghostWdecLiveP (7 : ℝ) 0 0 = 7 := rfl
  refine ghost_grad_nonzero_and_gradient_split.2.1 ghostCfg ghostMask ghostX
    ghostSaeOut ghostPerItemMse ghostHp (ghostHpLiveP 3) ghostWdec
    (ghostWdecLiveP 7) ghostHp ghostWdec ?_ ?_
  · intro n j hm
    have hj : j ≠ 0 := by
      intro h0
      rw [h0, ghostMask_eq 0] at hm
      simp at hm
    simp [ghostHpLiveP, ghostHp, hj]
  · intro j i hm
    have hj : j ≠ 0 := by
      intro h0
      rw [h0, ghostMask_eq 0] at hm
      simp at hm
    simp [ghostWdecLiveP, ghostWdec, hj]

end

/-! ### C9: `NeuronpediaRunner.to_str_tokens_safe` -/

/-- The sentinel string for out-of-range token ids. -/
def OUT_OF_RANGE_TOKEN : String := "<|outofrange|>"

/-- A torch tensor of token ids: its shape and its row-major flat data,
exactly what `tokens.shape` and `tokens.flatten().tolist()` expose. -/
structure TokenTensor where
  shape : List ℕ
  data : List ℤ

/-- The `tokens` argument of `to_str_tokens_safe`: a single int, or a
(possibly nested) list / tensor of ints — the source converts a list to a
tensor first, so both are carried as a `TokenTensor`. -/
inductive TokensArg where
  | int (t : ℤ)
  | tens (tt : TokenTensor)

/-- A nested list, the result of `np.reshape(...).tolist()`. -/
inductive NList (α : Type) where
  | leaf (a : α)
  | node (xs : List (NList α))

/-- Split a list into `n` consecutive chunks of length `k` (row-major
grouping, as `np.reshape` does). -/
def chunkN {α : Type} (n k : ℕ) (l : List α) : List (List α) :=
  match n with
  | 0 => []
  | m + 1 => l.take k :: chunkN m k (l.drop k)

/-- Row-major `np.reshape` of a flat list into a nested list of the given
shape. -/
def reshape {α : Type} : List ℕ → List α → NList α
  | [], [a] => .leaf a
  | [], _ => .node []
  | d :: ds, l => .node ((chunkN d ds.prod l).map (reshape ds))

/-- The per-token conversion rule of the tensor branch:
`vocab_dict[t] if t <= vocab_max_index else OUT_OF_RANGE_TOKEN`, where a
`none` lookup models a `KeyError`. -/
def tokenToStr (dVocab : ℕ) (vocab : ℤ → Option String) (t : ℤ) :
    Option String :=
  if t ≤ (dVocab : ℤ) - 1 then vocab t else some OUT_OF_RANGE_TOKEN

/-- `NeuronpediaRunner.to_str_tokens_safe`: the int case is handled
separately (`tokens > vocab_max_index` returns the sentinel, otherwise a
dict lookup); a list/tensor is flattened, converted elementwise by
`tokenToStr`, and reshaped to the input's shape. -/
def to_str_tokens_safe (dVocab : ℕ) (vocab : ℤ → Option String) :
    TokensArg → Option (NList String)
  | .int t =>
      if (dVocab : ℤ) - 1 < t then some (.leaf OUT_OF_RANGE_TOKEN)
      else (vocab t).map .leaf
  | .tens tt => do
      let strs ← tt.data.mapM (tokenToStr dVocab vocab)
      pure (reshape tt.shape strs)

theorem mapM_eq_map_of_some {α β : Type} (f : α → Option β) (g : α → β)
    (l : List α) (h : ∀ a ∈ l, f a = some (g a)) :
    l.mapM f = some (l.map g) := by
  induction l with
  | nil => rfl
  | cons a l ih =>
    rw [List.mapM_cons, h a (List.mem_cons_self a l),
      ih (fun b hb => h b (List.mem_cons_of_mem a hb))]
    rfl

/-- Elementwise map over a nested list, keeping its shape. -/
def nmap {α β : Type} (f : α → β) : NList α → NList β
  | .leaf a => .leaf (f a)
  | .node xs => .node (xs.attach.map fun x => nmap f x.1)
decreasing_by
  simp only [NList.node.sizeOf_spec]
  have := List.sizeOf_lt_of_mem x.2
  omega

theorem nmap_leaf {α β : Type} (f : α → β) (a : α) :
    nmap f (.leaf a) = .leaf (f a) := by
  rw [nmap.eq_def]

theorem nmap_node {α β : Type} (f : α → β) (xs : List (NList α)) :
    nmap f (.node xs) = .node (xs.map (nmap f)) := by
  rw [nmap.eq_def]
  exact congrArg NList.node (List.attach_map_val xs (nmap f))

theorem reshape_nil_single {α : Type} (a : α) :
    reshape [] [a] = NList.leaf a := rfl

theorem reshape_nil_nil {α : Type} :
    reshape ([] : List ℕ) ([] : List α) = NList.node [] := rfl

theorem reshape_nil_multi {α : Type} (a b : α) (l : List α) :
    reshape [] (a :: b :: l) = NList.node [] := rfl

theorem reshape_cons {α : Type} (d : ℕ) (ds : List ℕ) (l : List α) :
    reshape (d :: ds) l = NList.node ((chunkN d ds.prod l).map (reshape ds)) :=
  rfl

theorem chunkN_map {α β : Type} (g : α → β) (n k : ℕ) (l : List α) :
    chunkN n k (l.map g) = (chunkN n k l).map (List.map g) := by
  induction n generalizing l with
  | zero => rfl
  | succ m ih =>
    simp only [chunkN, List.map_cons]
    rw [← List.map_take, ← List.map_drop, ih]

/-- `np.reshape` commutes with an elementwise map: reshaping the mapped
flat data gives the same nested shape with each element replaced. -/
theorem reshape_map {α β : Type} (g : α → β) (shape : List ℕ) (l : List α) :
    reshape shape (l.map g) = nmap g (reshape shape l) := by
  induction shape generalizing l with
  | nil =>
    rcases l with _ | ⟨a, _ | ⟨b, l2⟩⟩ <;>
      simp [reshape_nil_single, reshape_nil_nil, reshape_nil_multi,
        nmap_leaf, nmap_node]
  | cons d ds ih =>
    rw [reshape_cons, reshape_cons, nmap_node, chunkN_map,
      List.map_map, List.map_map]
    congr 1
    refine List.map_congr_left fun x _ => ?_
    simpa using ih x

/-- C9: a single integer `t` with `0 ≤ t ≤ d_vocab - 1` maps to the
vocabulary entry `vocab_dict[t]`; a single integer `t > d_vocab - 1` maps
to the sentinel `"<|outofrange|>"` without any lookup; and a list/tensor
input each of whose entries is out of range or present in the vocabulary
never fails and yields the nested list of the same shape as the input with
each element replaced by the same rule. -/
theorem to_str_tokens_safe_spec (dVocab : ℕ) (vocab : ℤ → Option String) :
    (∀ (t : ℤ) (s : String), 0 ≤ t → t ≤ (dVocab : ℤ) - 1 →
      vocab t = some s →
      to_str_tokens_safe dVocab vocab (.int t) = some (.leaf s)) ∧
    (∀ t : ℤ, (dVocab : ℤ) - 1 < t →
      to_str_tokens_safe dVocab vocab (.int t) =
        some (.leaf OUT_OF_RANGE_TOKEN)) ∧
    (∀ tt : TokenTensor,
      (∀ t ∈ tt.data, (dVocab : ℤ) - 1 < t ∨ (vocab t).isSome) →
      to_str_tokens_safe dVocab vocab (.tens tt) =
        some (nmap (fun t =>
            if t ≤ (dVocab : ℤ) - 1 then (vocab t).getD ""
            else OUT_OF_RANGE_TOKEN)
          (reshape tt.shape tt.data))) := by
  refine ⟨?_, ?_, ?_⟩
  · intro t s h0 h1 hv
    simp only [to_str_tokens_safe]
    rw [if_neg (not_lt.mpr h1), hv]
    rfl
  · intro t h
    simp only [to_str_tokens_safe]
    rw [if_pos h]
  · intro tt h
    simp only [to_str_tokens_safe]
    rw [mapM_eq_map_of_some (tokenToStr dVocab vocab)
      (fun t => if t ≤ (dVocab : ℤ) - 1 then (vocab t).getD ""
        else OUT_OF_RANGE_TOKEN) tt.data ?_]
    · simp only [Option.bind_eq_bind, Option.some_bind, pure]
      rw [reshape_map]
    · intro a ha
      dsimp only
      rcases h a ha with hout | hsome
      · rw [tokenToStr, if_neg (not_le.mpr hout), if_neg (not_le.mpr hout)]
      · obtain ⟨v, hv⟩ := Option.isSome_iff_exists.mp hsome
        by_cases hle : a ≤ (dVocab : ℤ) - 1
        · rw [tokenToStr, if_pos hle, if_pos hle, hv]
          rfl
        · rw [tokenToStr, if_neg hle, if_neg hle]

/-- A small concrete vocabulary for the C9 witness. -/
def demoVocab : ℤ → Option String := fun t =>
  if t = 0 then some "a" else if t = 1 then some "b"
  else if t = 2 then some "c" else none

/-- Witness for C9: all three branches at a concrete vocabulary of size 3,
including a 2-by-2 tensor holding an out-of-range id. -/
theorem to_str_tokens_safe_spec_witness :
    to_str_tokens_safe 3 demoVocab (.int 1) = some (.leaf "b") ∧
    to_str_tokens_safe 3 demoVocab (.int 7) =
      some (.leaf OUT_OF_RANGE_TOKEN) ∧
    to_str_tokens_safe 3 demoVocab (.tens ⟨[2, 2], [1, 5, 0, 2]⟩) =
      some (nmap (fun t =>
          if t ≤ (3 : ℤ) - 1 then (demoVocab t).getD ""
          else OUT_OF_RANGE_TOKEN)
        (reshape [2, 2] [1, 5, 0, 2])) :=
  ⟨(to_str_tokens_safe_spec 3 demoVocab).1 1 "b" (by decide) (by decide) rfl,
   (to_str_tokens_safe_spec 3 demoVocab).2.1 7 (by decide),
   (to_str_tokens_safe_spec 3 demoVocab).2.2 ⟨[2, 2], [1, 5, 0, 2]⟩
     (by decide)⟩

/-! ### C10: `NeuronpediaRunner.get_tokens` -/

/-- `batch[torch.randperm(batch.shape[0])]`: reindex a list of rows by a
permutation of its positions (the random permutation is an explicit
parameter). -/
def applyPerm {α : Type} (l : List α) (σ : Equiv.Perm (Fin l.length)) :
    List α :=
  (List.finRange l.length).map (fun i => l.get (σ i))

/-- One loop iteration of `get_tokens`: a batch of token rows from the
activation store, shuffled, then sliced to its own row count (a no-op
slice, exactly as in the source). -/
def sampledBatch {α : Type} (store : ℕ → List α)
    (perms : (k : ℕ) → Equiv.Perm (Fin (store k).length)) (k : ℕ) :
    List α :=
  (applyPerm (store k) (perms k)).take (store k).length

/-- `torch.cat(all_tokens_list, dim=0)`: the concatenation of the sampled
batches. -/
def allTokens {α : Type} (nB : ℕ) (store : ℕ → List α)
    (perms : (k : ℕ) → Equiv.Perm (Fin (store k).length)) : List α :=
  ((List.range nB).map (sampledBatch store perms)).flatten

/-- `NeuronpediaRunner.get_tokens`: sample `n_batches_to_sample_from`
shuffled batches, concatenate them, shuffle the concatenation, and keep
the first `n_prompts_to_select` rows. -/
def get_tokens {α : Type} (nB : ℕ) (store : ℕ → List α)
    (perms : (k : ℕ) → Equiv.Perm (Fin (store k).length))
    (τ : Equiv.Perm (Fin (allTokens nB store perms).length))
    (nSelect : ℕ) : List α :=
  (applyPerm (allTokens nB store perms) τ).take nSelect

theorem applyPerm_perm {α : Type} (l : List α)
    (σ : Equiv.Perm (Fin l.length)) : (applyPerm l σ).Perm l := by
  have h1 : applyPerm l σ = ((List.finRange l.length).map σ).map l.get := by
    rw [List.map_map]
    rfl
  have h2 : ((List.finRange l.length).map σ).Perm (List.finRange l.length) := by
    apply List.perm_of_nodup_nodup_toFinset_eq
    · exact (List.nodup_finRange _).map σ.injective
    · exact List.nodup_finRange _
    · ext x
      simp only [List.mem_toFinset, List.mem_finRange, iff_true,
        List.mem_map]
      exact ⟨σ.symm x, trivial, σ.apply_symm_apply x⟩
  have h3 := h2.map l.get
  rw [List.finRange_map_get] at h3
  rw [h1]
  exact h3

theorem applyPerm_length {α : Type} (l : List α)
    (σ : Equiv.Perm (Fin l.length)) : (applyPerm l σ).length = l.length := by
  simp [applyPerm]

/-- C10: for every `n_batches_to_sample_from ≥ 1` and every
`n_prompts_to_select`, `get_tokens` returns at most `n_prompts_to_select`
rows, every returned row is a row of one of the batches obtained from the
activation store, and the result is a truncated permutation — a
subpermutation — of the concatenation of the sampled batches. -/
theorem get_tokens_spec {α : Type} (nB nSelect : ℕ) (store : ℕ → List α)
    (perms : (k : ℕ) → Equiv.Perm (Fin (store k).length))
    (τ : Equiv.Perm (Fin (allTokens nB store perms).length))
    (_h : 1 ≤ nB) :
    (get_tokens nB store perms τ nSelect).length ≤ nSelect ∧
    (∀ r ∈ get_tokens nB store perms τ nSelect, ∃ k < nB, r ∈ store k) ∧
    List.Subperm (get_tokens nB store perms τ nSelect)
      (((List.range nB).map store).flatten) := by
  have hsb : ∀ k, (sampledBatch store perms k).Perm (store k) := by
    intro k
    unfold sampledBatch
    rw [List.take_of_length_le (le_of_eq (applyPerm_length _ _))]
    exact applyPerm_perm _ _
  have hall : (allTokens nB store perms).Perm
      (((List.range nB).map store).flatten) := by
    unfold allTokens
    apply List.Perm.flatten_congr
    rw [List.forall₂_map_left_iff, List.forall₂_map_right_iff,
      List.forall₂_same]
    intro k _
    exact hsb k
  have hsub : List.Subperm (get_tokens nB store perms τ nSelect)
      (((List.range nB).map store).flatten) := by
    unfold get_tokens
    exact ((List.take_sublist _ _).subperm.trans
      (applyPerm_perm _ _).subperm).trans hall.subperm
  refine ⟨?_, ?_, hsub⟩
  · unfold get_tokens
    rw [List.length_take]
    exact min_le_left _ _
  · intro r hr
    have hmem := hsub.subset hr
    rw [List.mem_flatten] at hmem
    obtain ⟨l, hl, hrl⟩ := hmem
    rw [List.mem_map] at hl
    obtain ⟨k, hk, rfl⟩ := hl
    exact ⟨k, List.mem_range.mp hk, hrl⟩

/-- Witness for C10 at one singleton batch and identity permutations. -/
theorem get_tokens_spec_witness :
    (get_tokens 1 (fun _ => [(0 : ℕ)]) (fun _ => Equiv.refl _)
      (Equiv.refl _) 1).length ≤ 1 ∧
    (∀ r ∈ get_tokens 1 (fun _ => [(0 : ℕ)]) (fun _ => Equiv.refl _)
      (Equiv.refl _) 1, ∃ k < 1, r ∈ [(0 : ℕ)]) ∧
    List.Subperm (get_tokens 1 (fun _ => [(0 : ℕ)]) (fun _ => Equiv.refl _)
      (Equiv.refl _) 1) (((List.range 1).map (fun _ => [(0 : ℕ)])).flatten) :=
  get_tokens_spec 1 1 (fun _ => [(0 : ℕ)]) (fun _ => Equiv.refl _)
    (Equiv.refl _) (le_refl 1)
